import Mathlib

/-!
Verification of the LLM-output recovery parsing and dish-extraction core of the
menu-ai-app backend.

The development shallowly embeds, from the Python sources:
* `safe_json_parse` from `backend/app/services/vision_parser.py` — the cascading
  recovery JSON parser, over a model of Python's strict `json.loads`;
* `extract_popular_dishes` and `match_dish_to_menu` from
  `backend/app/services/dish_extractor.py` — the dish aggregator (Python
  `collections.Counter` + `most_common`) and the fuzzy matcher (Python
  `difflib.SequenceMatcher.ratio`);
* the pydantic models `MenuItem`, `MenuCategory`, `ParsedMenu` from
  `backend/app/models/menu.py`, as a typed decoder over parsed JSON.

Machine reals (Python floats) are modelled as exact rationals (the fraction
type `Q` below); for every comparison and value appearing in the theorems the
two coincide.  Unicode-whitespace
classes of Python's `str.strip` and of the regex class `\s` are modelled by
their ASCII part, which is all that the repository's inputs exercise.
-/

namespace MenuApp

/-- Exact rational numbers as explicit fractions over `Int`, used to model
Python's arbitrary-precision `int` and its `float` results exactly.  Every
`Q` built by the definitions below has a positive denominator; fractions are
not reduced, and the order relations compare by cross-multiplication, so all
operations and comparisons compute by integer arithmetic alone. -/
structure Q where
  num : Int
  den : Int
deriving DecidableEq

def Q.ofInt (n : Int) : Q := ⟨n, 1⟩

def Q.add (x y : Q) : Q := ⟨x.num * y.den + y.num * x.den, x.den * y.den⟩

def Q.mul (x y : Q) : Q := ⟨x.num * y.num, x.den * y.den⟩

/-- Division, keeping the denominator positive (for a nonzero divisor). -/
def Q.div (x y : Q) : Q :=
  if y.num < 0 then ⟨-(x.num * y.den), x.den * (-y.num)⟩
  else ⟨x.num * y.den, x.den * y.num⟩

def Q.neg (x : Q) : Q := ⟨-x.num, x.den⟩

/-- `x ≤ y` by cross-multiplication (correct for positive denominators). -/
def Q.le (x y : Q) : Prop := x.num * y.den ≤ y.num * x.den

/-- `x < y` by cross-multiplication (correct for positive denominators). -/
def Q.lt (x y : Q) : Prop := x.num * y.den < y.num * x.den

instance : LE Q := ⟨Q.le⟩

instance : LT Q := ⟨Q.lt⟩

instance (x y : Q) : Decidable (x ≤ y) :=
  inferInstanceAs (Decidable (x.num * y.den ≤ y.num * x.den))

instance (x y : Q) : Decidable (x < y) :=
  inferInstanceAs (Decidable (x.num * y.den < y.num * x.den))

/-- JSON values as produced by Python's `json.loads`.  Numbers (both Python
`int` and `float` results) are carried as exact rationals; `nan`, `inf`,
`negInf` model the non-standard constants `NaN`, `Infinity`, `-Infinity`
accepted by `json.loads`.  Objects are association lists in Python-`dict`
insertion order (duplicate keys update in place, keeping the first position,
exactly as the Python decoder's `dict` construction does). -/
inductive Json where
  | null : Json
  | bool (b : Bool) : Json
  | num (q : Q) : Json
  | str (s : String) : Json
  | arr (elems : List Json) : Json
  | obj (members : List (String × Json)) : Json
  | nan : Json
  | inf : Json
  | negInf : Json

/-- The whitespace skipped between JSON tokens by Python's `json` scanner
(`json.decoder.WHITESPACE` is `[ \t\n\r]*`). -/
def jsonWs (c : Char) : Bool :=
  c = ' ' || c = '\t' || c = '\n' || c = '\r'

/-- Whitespace as stripped by Python `str.strip()` and matched by the regex
class `\s` (ASCII part: space, tab, newline, carriage return, vertical tab,
form feed). -/
def wsp (c : Char) : Bool :=
  c = ' ' || c = '\t' || c = '\n' || c = '\r' || c = '\x0b' || c = '\x0c'

def skipWs (cs : List Char) : List Char := cs.dropWhile jsonWs

def isDigitCh (c : Char) : Bool := '0' ≤ c && c ≤ '9'

def hexVal? (c : Char) : Option Nat :=
  if '0' ≤ c && c ≤ '9' then some (c.toNat - 48)
  else if 'a' ≤ c && c ≤ 'f' then some (c.toNat - 87)
  else if 'A' ≤ c && c ≤ 'F' then some (c.toNat - 55)
  else none

def hex4? (a b c d : Char) : Option Nat := do
  let x ← hexVal? a
  let y ← hexVal? b
  let z ← hexVal? c
  let w ← hexVal? d
  pure (((x * 16 + y) * 16 + z) * 16 + w)

/-- Decode the body of a JSON string literal (opening quote already consumed),
as Python's strict `py_scanstring` does: raw control characters below 0x20 are
rejected, the eight standard escapes and `\uXXXX` are decoded, surrogate pairs
are combined.  A lone surrogate, which Python keeps as a lone-surrogate code
unit (unrepresentable in Lean's `String`), is mapped to U+FFFD.  Returns the
decoded characters and the input remaining after the closing quote. -/
def parseStringBody : Nat → List Char → Option (List Char × List Char)
  | 0, _ => none
  | _, [] => none
  | f + 1, c :: rest =>
    if c = '"' then some ([], rest)
    else if c = '\\' then
      match rest with
      | [] => none
      | e :: rest2 =>
        let cont := fun (ch : Char) (rs : List Char) =>
          (parseStringBody f rs).map fun p => (ch :: p.1, p.2)
        if e = '"' then cont '"' rest2
        else if e = '\\' then cont '\\' rest2
        else if e = '/' then cont '/' rest2
        else if e = 'b' then cont '\x08' rest2
        else if e = 'f' then cont '\x0c' rest2
        else if e = 'n' then cont '\n' rest2
        else if e = 'r' then cont '\r' rest2
        else if e = 't' then cont '\t' rest2
        else if e = 'u' then
          match rest2 with
          | h1 :: h2 :: h3 :: h4 :: rest3 =>
            match hex4? h1 h2 h3 h4 with
            | none => none
            | some n =>
              if 0xD800 ≤ n && n ≤ 0xDBFF then
                match rest3 with
                | '\\' :: 'u' :: g1 :: g2 :: g3 :: g4 :: rest4 =>
                  match hex4? g1 g2 g3 g4 with
                  | some m =>
                    if 0xDC00 ≤ m && m ≤ 0xDFFF then
                      cont (Char.ofNat (0x10000 + (n - 0xD800) * 0x400 + (m - 0xDC00))) rest4
                    else cont '�' rest3
                  | none => cont '�' rest3
                | _ => cont '�' rest3
              else if 0xDC00 ≤ n && n ≤ 0xDFFF then cont '�' rest3
              else cont (Char.ofNat n) rest3
          | _ => none
        else none
    else if c.toNat < 0x20 then none
    else (parseStringBody f rest).map fun p => (c :: p.1, p.2)

def digitsToNat (ds : List Char) : Nat :=
  ds.foldl (fun a c => a * 10 + (c.toNat - 48)) 0

/-- Parse a JSON number at the head of the input, following Python's
`json.decoder.NUMBER_RE`: `(-?(?:0|[1-9]\d*))(\.\d+)?([eE][-+]?\d+)?`.
The numeric value is computed exactly as a rational. -/
def parseNumber (cs : List Char) : Option (Json × List Char) :=
  let signAndRest : Bool × List Char :=
    match cs with
    | '-' :: r => (true, r)
    | _ => (false, cs)
  let neg := signAndRest.1
  let cs1 := signAndRest.2
  match cs1 with
  | [] => none
  | c :: tl =>
    if ¬ isDigitCh c then none
    else
      let intPart : List Char × List Char :=
        if c = '0' then ([c], tl)
        else (cs1.takeWhile isDigitCh, cs1.dropWhile isDigitCh)
      let intDigits := intPart.1
      let rest1 := intPart.2
      let fracPart : List Char × List Char :=
        match rest1 with
        | '.' :: r =>
          let ds := r.takeWhile isDigitCh
          if ds = [] then ([], rest1) else (ds, r.dropWhile isDigitCh)
        | _ => ([], rest1)
      let fracDigits := fracPart.1
      let rest2 := fracPart.2
      let expPart : Option (Bool × List Char) × List Char :=
        match rest2 with
        | e :: r =>
          if e = 'e' || e = 'E' then
            let signRest : Bool × List Char :=
              match r with
              | '+' :: rr => (false, rr)
              | '-' :: rr => (true, rr)
              | _ => (false, r)
            let ds := signRest.2.takeWhile isDigitCh
            if ds = [] then (none, rest2)
            else (some (signRest.1, ds), signRest.2.dropWhile isDigitCh)
          else (none, rest2)
        | [] => (none, rest2)
      let rest3 := expPart.2
      let mantissa : Q :=
        if fracDigits = [] then ⟨(digitsToNat intDigits : Int), 1⟩
        else
          Q.add ⟨(digitsToNat intDigits : Int), 1⟩
            ⟨(digitsToNat fracDigits : Int), ((10 ^ fracDigits.length : Nat) : Int)⟩
      let expScaled : Q :=
        match expPart.1 with
        | none => mantissa
        | some (eneg, eds) =>
          if eneg then Q.div mantissa ⟨((10 ^ digitsToNat eds : Nat) : Int), 1⟩
          else Q.mul mantissa ⟨((10 ^ digitsToNat eds : Nat) : Int), 1⟩
      let value : Q := if neg then Q.neg expScaled else expScaled
      some (.num value, rest3)

/-- Python-`dict` insertion used by the JSON object decoder: an existing key is
updated in place (keeping its original position), a new key is appended. -/
def insertKey (l : List (String × Json)) (k : String) (v : Json) : List (String × Json) :=
  match l with
  | [] => [(k, v)]
  | (k', v') :: t => if k' = k then (k, v) :: t else (k', v') :: insertKey t k v

/-- Parse the comma-separated items of a non-empty JSON array, given a parser
`pv` for a single value positioned at the head of the input. -/
def parseItemsWith (pv : List Char → Option (Json × List Char)) :
    Nat → List Char → List Json → Option (Json × List Char)
  | 0, _, _ => none
  | f + 1, cs, acc =>
    match pv cs with
    | none => none
    | some (v, r1) =>
      match skipWs r1 with
      | ',' :: r2 => parseItemsWith pv f (skipWs r2) (acc ++ [v])
      | ']' :: r2 => some (.arr (acc ++ [v]), r2)
      | _ => none

/-- Parse the members of a non-empty JSON object, given a parser `pv` for a
single value. -/
def parseMembersWith (pv : List Char → Option (Json × List Char)) :
    Nat → List Char → List (String × Json) → Option (Json × List Char)
  | 0, _, _ => none
  | f + 1, cs, acc =>
    match cs with
    | '"' :: rest =>
      match parseStringBody (rest.length + 1) rest with
      | none => none
      | some (k, r1) =>
        match skipWs r1 with
        | ':' :: r2 =>
          match pv (skipWs r2) with
          | none => none
          | some (v, r3) =>
            let acc' := insertKey acc (String.mk k) v
            match skipWs r3 with
            | ',' :: r4 => parseMembersWith pv f (skipWs r4) acc'
            | '\x7d' :: r4 => some (.obj acc', r4)
            | _ => none
        | _ => none
    | _ => none

/-- Parse a single JSON value at the head of the input (no leading whitespace),
modelling Python's `json.decoder.JSONDecoder.raw_decode` scanner, including the
non-standard constants `NaN`, `Infinity`, `-Infinity` that `json.loads` accepts
by default.  Returns the value and the remaining input. -/
def parseValue : Nat → List Char → Option (Json × List Char)
  | 0, _ => none
  | f + 1, cs =>
    match cs with
    | [] => none
    | 'N' :: 'a' :: 'N' :: rest => some (.nan, rest)
    | 'I' :: 'n' :: 'f' :: 'i' :: 'n' :: 'i' :: 't' :: 'y' :: rest => some (.inf, rest)
    | '-' :: 'I' :: 'n' :: 'f' :: 'i' :: 'n' :: 'i' :: 't' :: 'y' :: rest =>
      some (.negInf, rest)
    | 't' :: 'r' :: 'u' :: 'e' :: rest => some (.bool true, rest)
    | 'f' :: 'a' :: 'l' :: 's' :: 'e' :: rest => some (.bool false, rest)
    | 'n' :: 'u' :: 'l' :: 'l' :: rest => some (.null, rest)
    | '"' :: rest =>
      (parseStringBody (rest.length + 1) rest).map fun p => (.str (String.mk p.1), p.2)
    | '\x7b' :: rest =>
      (match skipWs rest with
       | '\x7d' :: r => some (.obj [], r)
       | cs2 => parseMembersWith (parseValue f) (cs2.length + 1) cs2 [])
    | '[' :: rest =>
      (match skipWs rest with
       | ']' :: r => some (.arr [], r)
       | cs2 => parseItemsWith (parseValue f) (cs2.length + 1) cs2 [])
    | c :: _ =>
      if c = '-' || isDigitCh c then parseNumber cs else none

/-- Model of Python's strict `json.loads` on a character list: skip leading
whitespace, parse one value, require only whitespace to remain.  `none` models
a raised `json.JSONDecodeError`. -/
def loadsL (cs : List Char) : Option Json :=
  match parseValue (cs.length + 1) (skipWs cs) with
  | some (v, rest) => if skipWs rest = [] then some v else none
  | none => none

/-- `json.loads` on a Lean string. -/
def loads (s : String) : Option Json := loadsL s.data

/-! ### The recovery pipeline of `safe_json_parse` (vision_parser.py) -/

/-- Remove trailing characters satisfying `p`. -/
def trimRight (p : Char → Bool) (l : List Char) : List Char :=
  (l.reverse.dropWhile p).reverse

/-- Python `str.strip()`: remove leading and trailing whitespace. -/
def pyStripL (l : List Char) : List Char :=
  trimRight wsp (l.dropWhile wsp)

def fenceJson : List Char := "```json".data

def fence3 : List Char := "```".data

/-- `re.sub(r'^```json\s*', '', s)`: if the text begins with the literal
 ` ```json `, remove it together with the following whitespace run. -/
def subPrefixJsonFence (l : List Char) : List Char :=
  if fenceJson.isPrefixOf l then (l.drop 7).dropWhile wsp else l

/-- `re.sub(r'^```\s*', '', s)`. -/
def subPrefixFence (l : List Char) : List Char :=
  if fence3.isPrefixOf l then (l.drop 3).dropWhile wsp else l

/-- `re.sub(r'\s*```$', '', s)`: if the text ends with ` ``` `, remove it
together with the whitespace run before it.  (The `$`-before-final-newline
subtlety of Python regexes cannot fire here: the pipeline only applies this to
already-stripped text.) -/
def subSuffixFence (l : List Char) : List Char :=
  if fence3.isSuffixOf l then trimRight wsp (l.take (l.length - 3)) else l

/-- The three fence-stripping substitutions, in source order. -/
def fenceStrip (l : List Char) : List Char :=
  subSuffixFence (subPrefixFence (subPrefixJsonFence l))

/-- `start = s.find("{"); end = s.rfind("}"); if start != -1 and end != -1:
s = s[start:end+1]` — object-mode bracket isolation of `safe_json_parse`. -/
def isolateObj (l : List Char) : List Char :=
  match l.findIdx? (· = '\x7b'), l.reverse.findIdx? (· = '\x7d') with
  | some s, some k =>
    let e := l.length - 1 - k
    (l.drop s).take (e + 1 - s)
  | _, _ => l

/-- Array-mode bracket isolation (`find("[")` / `rfind("]")`), used by the
dish extractor. -/
def isolateArr (l : List Char) : List Char :=
  match l.findIdx? (· = '['), l.reverse.findIdx? (· = ']') with
  | some s, some k =>
    let e := l.length - 1 - k
    (l.drop s).take (e + 1 - s)
  | _, _ => l

/-- One left-to-right pass of `re.sub(r',(\s*[}\]])', r'\1', s)`: every comma
that is followed (up to whitespace) by a closing `}` or `]` is removed, the
whitespace and bracket are kept, and scanning resumes after the bracket. -/
def fixTrailingF : Nat → List Char → List Char
  | 0, l => l
  | _, [] => []
  | f + 1, c :: rest =>
    if c = ',' then
      match rest.dropWhile wsp with
      | d :: rest' =>
        if d = '\x7d' || d = ']' then
          rest.takeWhile wsp ++ d :: fixTrailingF f rest'
        else c :: fixTrailingF f rest
      | [] => c :: fixTrailingF f rest
    else c :: fixTrailingF f rest

def fixTrailing (l : List Char) : List Char := fixTrailingF l.length l

/-- One left-to-right pass of `re.sub(r'"\s*\n\s*"', '",\n"', s)`: a quote
followed by a whitespace run containing a newline and another quote is
replaced by `",` newline `"`, and scanning resumes after the second quote. -/
def fixMissingF : Nat → List Char → List Char
  | 0, l => l
  | _, [] => []
  | f + 1, c :: rest =>
    if c = '"' then
      match rest.dropWhile wsp with
      | d :: rest' =>
        if d = '"' && (rest.takeWhile wsp).contains '\n' then
          '"' :: ',' :: '\n' :: '"' :: fixMissingF f rest'
        else c :: fixMissingF f rest
      | [] => c :: fixMissingF f rest
    else c :: fixMissingF f rest

def fixMissing (l : List Char) : List Char := fixMissingF l.length l

/-- The error raised when all parse attempts of `safe_json_parse` fail
(a Python `ValueError`); it carries the first 500 characters of the processed
JSON candidate text (`json_str[:500]` in the source). -/
structure ParseErr where
  preview : String
deriving DecidableEq

/-- The text preprocessing of `safe_json_parse`: strip, remove markdown
fences, isolate the first `{` … last `}` span.  The result is the `json_str`
the parse attempts run on. -/
def preprocess (s : String) : List Char :=
  isolateObj (fenceStrip (pyStripL s.data))

/-- `safe_json_parse` from `vision_parser.py`: preprocess, then try a strict
parse, then the trailing-comma repair, then the missing-comma repair; if all
three fail, raise a `ValueError` carrying the first 500 characters of the
processed text. -/
def safe_json_parse (text : String) : Except ParseErr Json :=
  let j2 := preprocess text
  match loadsL j2 with
  | some v => .ok v
  | none =>
    let f1 := fixTrailing j2
    match loadsL f1 with
    | some v => .ok v
    | none =>
      let f2 := fixMissing f1
      match loadsL f2 with
      | some v => .ok v
      | none => .error ⟨String.mk (j2.take 500)⟩

/-! ### Fuzzy dish matching (dish_extractor.py: `match_dish_to_menu`)

`difflib.SequenceMatcher(None, a, b).ratio()` is modelled by the
Ratcliff–Obershelp computation of CPython's `difflib`: recursively take the
longest matching block (`find_longest_match`, the `j2len` dynamic program) and
sum the matched sizes.  The inputs here are far below the 200-element `autojunk`
threshold, so the popularity heuristic never fires and is omitted.  -/

def lookupD (l : List (Nat × Nat)) (key : Nat) : Nat :=
  match l.find? (·.1 = key) with
  | some p => p.2
  | none => 0

/-- Positions (ascending) of character `c` in `b` — CPython's `b2j`. -/
def b2jIndices (b : List Char) (c : Char) : List Nat :=
  (List.range b.length).filter fun j => b.getD j ' ' = c

/-- Inner loop of `find_longest_match` over the occurrence list of `a[i]`:
`k = j2len.get(j-1, 0) + 1; newj2len[j] = k`, updating the best block on
strict improvement. -/
def flmInner (j2len : List (Nat × Nat)) (i : Nat) :
    List Nat → List (Nat × Nat) → Nat × Nat × Nat → List (Nat × Nat) × (Nat × Nat × Nat)
  | [], acc, best => (acc, best)
  | j :: js, acc, best =>
    let k := if j = 0 then 1 else lookupD j2len (j - 1) + 1
    let best' := if best.2.2 < k then (i + 1 - k, j + 1 - k, k) else best
    flmInner j2len i js ((j, k) :: acc) best'

/-- Outer loop of `find_longest_match` over `i ∈ [alo, ahi)`. -/
def flmOuter (a b : List Char) (blo bhi : Nat) :
    List Nat → List (Nat × Nat) → Nat × Nat × Nat → Nat × Nat × Nat
  | [], _, best => best
  | i :: is, j2len, best =>
    let js := (b2jIndices b (a.getD i ' ')).filter fun j => blo ≤ j && j < bhi
    let r := flmInner j2len i js [] best
    flmOuter a b blo bhi is r.1 r.2

/-- `SequenceMatcher.find_longest_match` on the window
`a[alo:ahi]`, `b[blo:bhi]` (no junk, so the post-extension loops of CPython
cannot extend the maximal block and are omitted). -/
def findLongestMatch (a b : List Char) (alo ahi blo bhi : Nat) : Nat × Nat × Nat :=
  flmOuter a b blo bhi (List.range' alo (ahi - alo)) [] (alo, blo, 0)

/-- Total size of all matching blocks (`get_matching_blocks` recursion,
summing only sizes, which is all `ratio` consumes). -/
def matchesTotal (a b : List Char) : Nat → Nat → Nat → Nat → Nat → Nat
  | 0, _, _, _, _ => 0
  | f + 1, alo, ahi, blo, bhi =>
    let t := findLongestMatch a b alo ahi blo bhi
    if t.2.2 = 0 then 0
    else
      matchesTotal a b f alo t.1 blo t.2.1 + t.2.2 +
        matchesTotal a b f (t.1 + t.2.2) ahi (t.2.1 + t.2.2) bhi

/-- `SequenceMatcher(None, a, b).ratio()` as an exact rational:
`2 * matches / (len(a) + len(b))`. -/
def smRatioL (a b : List Char) : Q :=
  let m := matchesTotal a b (a.length + b.length + 1) 0 a.length 0 b.length
  ⟨((2 * m : Nat) : Int), ((a.length + b.length : Nat) : Int)⟩

/-- Python `str.lower()` (ASCII part; the menu strings exercised are ASCII). -/
def lowerL (l : List Char) : List Char := l.map Char.toLower

/-- Python's substring test `needle in hay` on character lists. -/
def containsSub (needle : List Char) : List Char → Bool
  | [] => needle.isPrefixOf []
  | c :: rest => needle.isPrefixOf (c :: rest) || containsSub needle rest

/-- The per-item score of `match_dish_to_menu` for a non-exact item: 0.9 on
substring containment in either direction, else the similarity ratio. -/
def scoreOf (dishL itemL : List Char) : Q :=
  if containsSub dishL itemL || containsSub itemL dishL then ⟨9, 10⟩
  else smRatioL dishL itemL

/-- The scanning loop of `match_dish_to_menu`: an exact (case-insensitive)
match returns immediately; otherwise the best score is tracked with strict
improvement (`score > best_score`), and after the loop the best match is
returned iff `best_score >= threshold`. -/
def matchGo (dishL : List Char) (threshold : Q) :
    List String → Option String → Q → Option String
  | [], bm, bs => if threshold ≤ bs then bm else none
  | item :: rest, bm, bs =>
    let itemL := lowerL item.data
    if itemL = dishL then some item
    else
      let score := scoreOf dishL itemL
      if bs < score then matchGo dishL threshold rest (some item) score
      else matchGo dishL threshold rest bm bs

/-- `match_dish_to_menu` from `dish_extractor.py`. -/
def match_dish_to_menu (dish_name : String) (menu_items : List String)
    (threshold : Q := ⟨7, 10⟩) : Option String :=
  matchGo (lowerL dish_name.data) threshold menu_items none ⟨0, 1⟩

/-! ### Dish aggregation (dish_extractor.py: `extract_popular_dishes`) -/

/-- One entry of the result list of `extract_popular_dishes`
(`{"name": ..., "mention_count": ..., "avg_sentiment": 0.8, "sample_reviews": []}`). -/
structure PopularDish where
  name : String
  mention_count : Int
  avg_sentiment : Q
  sample_reviews : List String
deriving DecidableEq

/-- Add one occurrence to a `collections.Counter` held as an association list
in insertion order: an existing key is incremented in place, a new key is
appended. -/
def counterAdd (l : List (String × Int)) (x : String) : List (String × Int) :=
  match l with
  | [] => [(x, 1)]
  | (k, c) :: t => if k = x then (k, c + 1) :: t else (k, c) :: counterAdd t x

/-- `collections.Counter(xs)` for a list of strings: counts in first-occurrence
order. -/
def counterList (xs : List String) : List (String × Int) := xs.foldl counterAdd []

/-- Stable descending insertion: the new entry goes after all strictly greater
counts and before equal ones, matching the stability of Python's
`sorted(..., reverse=True)` / `heapq.nlargest` used by `Counter.most_common`. -/
def insertDesc (x : String × Int) : List (String × Int) → List (String × Int)
  | [] => [x]
  | y :: t => if x.2 < y.2 then y :: insertDesc x t else x :: y :: t

/-- Stable sort by descending count. -/
def sortCountDesc (l : List (String × Int)) : List (String × Int) :=
  l.foldr insertDesc []

/-- `Counter.most_common(n)`: entries sorted by descending count, ties in
insertion order, truncated to `n`. -/
def mostCommon (counts : List (String × Int)) (n : Nat) : List (String × Int) :=
  (sortCountDesc counts).take n

/-- The result-building comprehension of `extract_popular_dishes`: each
`most_common` entry becomes a dict with the hardcoded sentiment placeholder
0.8 and an empty sample list. -/
def popularFromCounts (counts : List (String × Int)) (top_n : Nat) : List PopularDish :=
  (mostCommon counts top_n).map fun p => ⟨p.1, p.2, ⟨4, 5⟩, []⟩

/-- `collections.Counter(...)` applied to a decoded JSON value, as the code
does with `json.loads`' result.  Modelled for the two shapes with
well-defined, claim-relevant behavior: a JSON array of strings is counted
elementwise; a JSON object with integer values is adopted as a ready-made
count mapping (Python `Counter(dict)` semantics).  Other values (for which
Python raises `TypeError`, caught by the function's blanket handler, or
produces non-string keys outside the declared result shape) are modelled as
failure. -/
def counterOfJson : Json → Option (List (String × Int))
  | .arr elems =>
    let strs := elems.map fun j => match j with | .str s => some s | _ => none
    if strs.all Option.isSome then some (counterList (strs.reduceOption)) else none
  | .obj kvs =>
    let ints := kvs.map fun p => match p.2 with
      | .num q => if q.den = 1 then some (p.1, q.num) else none
      | _ => none
    if ints.all Option.isSome then some ints.reduceOption else none
  | _ => none

/-- `"\n\n".join(f"Review {i+1}: {r}" for ...)`. -/
def reviewsText (reviews : List String) : String :=
  String.intercalate "\n\n"
    (reviews.enum.map fun p => "Review " ++ toString (p.1 + 1) ++ ": " ++ p.2)

/-- `DISH_EXTRACTION_PROMPT` up to the `{reviews}` placeholder. -/
def DISH_EXTRACTION_PROMPT_pre : String :=
  "Analyze these restaurant reviews and extract all dish names mentioned.\n\nReturn ONLY a JSON array of dish names, nothing else. No explanations, no markdown.\n\nRules:\n- Extract complete dish names (e.g., \"Classic Poutine\", not just \"Poutine\")\n- Normalize spelling and capitalization (e.g., \"tonkatsu\" → \"Tonkatsu\")\n- Skip vague terms like \"food\", \"meal\", \"dish\", \"order\"\n- Skip standalone adjectives (e.g., \"delicious\", \"amazing\") without dish names\n- Include only actual menu items, not ingredients alone\n- If a dish is mentioned multiple times, include it each time\n- Keep dish names concise (e.g., \"BBQ Pulled Pork Poutine\" not \"the amazing BBQ Pulled Pork Poutine\")\n\nReviews:\n"

/-- `DISH_EXTRACTION_PROMPT` after the `{reviews}` placeholder. -/
def DISH_EXTRACTION_PROMPT_post : String :=
  "\n\nOutput format (ONLY this, nothing else):\n[\"Dish Name 1\", \"Dish Name 2\", \"Dish Name 3\", ...]\n"

/-- `DISH_EXTRACTION_PROMPT.format(reviews=...)`. -/
def dishPrompt (reviews : List String) : String :=
  DISH_EXTRACTION_PROMPT_pre ++ reviewsText reviews ++ DISH_EXTRACTION_PROMPT_post

/-- `extract_popular_dishes` from `dish_extractor.py`.  The outbound Gemini
call is the function parameter `genModel` (applied to the API key and the
prompt): `.error` models any exception raised by the client or the call,
`.ok` the returned response text.  Both `except` arms of the source return
`[]`, so every failure after the empty-input short-circuit maps to `[]`. -/
def extract_popular_dishes (reviews : List String) (api_key : String)
    (genModel : String → String → Except String String)
    (top_n : Nat := 10) : List PopularDish :=
  if reviews.isEmpty then []
  else
    match genModel api_key (dishPrompt reviews) with
    | .error _ => []
    | .ok responseText =>
      let r2 := isolateArr (fenceStrip (pyStripL responseText.data))
      match loadsL r2 with
      | none => []
      | some j =>
        match counterOfJson j with
        | none => []
        | some counts => popularFromCounts counts top_n

/-! ### The typed menu tree (models/menu.py) and its pydantic construction

`ParsedMenu(**parsed_json)` runs pydantic v2 validation of the three models of
`backend/app/models/menu.py`.  The decoder below models that validation for
JSON-origin data: required `str` fields (`category`, item `name`) must be
strings; `str | None` fields accept a string, `null`, or absence (defaulting
to `None`); `price: float | None` accepts a number, `null`, or absence;
`list[...]` fields accept a list or absence (defaulting to `[]`, the
`default_factory`); extra keys are ignored; list order is kept.  Pydantic's
lax coercion of numeric *strings* into `price` is not modelled — no input in
the verified claims exercises it. -/

structure MenuItem where
  name : String
  name_translated : Option String
  price : Option Q
  price_original : Option String
  currency : Option String
  description : Option String
  description_translated : Option String
deriving DecidableEq

structure MenuCategory where
  category : String
  category_translated : Option String
  items : List MenuItem
deriving DecidableEq

structure ParsedMenu where
  detected_language : Option String
  target_language : Option String
  menu : List MenuCategory
deriving DecidableEq

/-- Key lookup in a decoded JSON object (Python `dict` access). -/
def getField (l : List (String × Json)) (k : String) : Option Json :=
  (l.find? (·.1 = k)).map (·.2)

/-- Validation of an optional-string field (`str | None = Field(None, ...)`). -/
def decOptStr (v : Option Json) : Except String (Option String) :=
  match v with
  | none => .ok none
  | some .null => .ok none
  | some (.str s) => .ok (some s)
  | some _ => .error "expected string or null"

/-- Validation of the `price: float | None` field. -/
def decOptNum (v : Option Json) : Except String (Option Q) :=
  match v with
  | none => .ok none
  | some .null => .ok none
  | some (.num q) => .ok (some q)
  | some _ => .error "expected number or null"

/-- Validation of a required string field (`str = Field(...)`). -/
def decReqStr (v : Option Json) : Except String String :=
  match v with
  | some (.str s) => .ok s
  | some _ => .error "wrong type"
  | none => .error "field required"

/-- Validate every element of a list, failing on the first error — the
elementwise validation pydantic applies to a `list[...]` field. -/
def decAll (f : Json → Except String α) : List Json → Except String (List α)
  | [] => .ok []
  | j :: t => do
    let x ← f j
    let xs ← decAll f t
    pure (x :: xs)

def MenuItem.fromJson : Json → Except String MenuItem
  | .obj l => do
    let name ← decReqStr (getField l "name")
    let nt ← decOptStr (getField l "name_translated")
    let price ← decOptNum (getField l "price")
    let po ← decOptStr (getField l "price_original")
    let cur ← decOptStr (getField l "currency")
    let desc ← decOptStr (getField l "description")
    let dt ← decOptStr (getField l "description_translated")
    pure ⟨name, nt, price, po, cur, desc, dt⟩
  | _ => .error "item must be an object"

/-- Validation of the `items: list[MenuItem]` field (absence defaults to
`[]` via `default_factory=list`). -/
def decItemList : Option Json → Except String (List MenuItem)
  | none => .ok []
  | some (.arr xs) => decAll MenuItem.fromJson xs
  | some _ => .error "items must be a list"

def MenuCategory.fromJson : Json → Except String MenuCategory
  | .obj l => do
    let cat ← decReqStr (getField l "category")
    let ct ← decOptStr (getField l "category_translated")
    let items ← decItemList (getField l "items")
    pure ⟨cat, ct, items⟩
  | _ => .error "category must be an object"

/-- Validation of the `menu: list[MenuCategory]` field. -/
def decCatList : Option Json → Except String (List MenuCategory)
  | none => .ok []
  | some (.arr xs) => decAll MenuCategory.fromJson xs
  | some _ => .error "menu must be a list"

/-- `ParsedMenu(**parsed_json)`: validation of the root model. -/
def ParsedMenu.fromJson : Json → Except String ParsedMenu
  | .obj l => do
    let dl ← decOptStr (getField l "detected_language")
    let tl ← decOptStr (getField l "target_language")
    let menu ← decCatList (getField l "menu")
    pure ⟨dl, tl, menu⟩
  | _ => .error "menu payload must be an object"

/-! Claim-side predicate: "a required field (category of a category, name of
an item) is missing or of the wrong primitive type", read off the parsed JSON
tree.  Written from the claim's words, to compare the claimed failure
condition against the decoder's actual one. -/

/-- Is this present field a JSON string? -/
def optJsonIsStr : Option Json → Bool
  | some (.str _) => true
  | _ => false

/-- Does a present array field contain an element violating `p`?  (A missing
or non-array field contributes no violation under the claim's wording.) -/
def optJsonArrViol (p : Json → Bool) : Option Json → Bool
  | some (.arr xs) => xs.any p
  | _ => false

def itemNameViolation : Json → Bool
  | .obj l => ! optJsonIsStr (getField l "name")
  | _ => false

def catViolation : Json → Bool
  | .obj l =>
    (! optJsonIsStr (getField l "category")) ||
      optJsonArrViol itemNameViolation (getField l "items")
  | _ => false

/-- "Some required field (a category's `category`, an item's `name`) is
missing or of the wrong primitive type" — the failure condition the claim
asserts to be exact. -/
def requiredFieldViolation : Json → Bool
  | .obj l => optJsonArrViol catViolation (getField l "menu")
  | _ => false

/-! ## Theorems -/

/-- Equal preprocessed candidates give equal `safe_json_parse` results. -/
theorem safe_json_parse_congr {s₁ s₂ : String} (h : preprocess s₁ = preprocess s₂) :
    safe_json_parse s₁ = safe_json_parse s₂ := by
  unfold safe_json_parse
  rw [h]

/-- C6: on an empty review list, `extract_popular_dishes` returns `[]` without
consulting the model: the result is `[]` for every model behavior, API key,
and `top_n`. -/
theorem c6_empty_reviews_no_model_call :
    ∀ (api_key : String) (genModel : String → String → Except String String) (top_n : Nat),
      extract_popular_dishes [] api_key genModel top_n = [] :=
  fun _ _ _ => rfl

/-- The scanning loop of `match_dish_to_menu` returns the first
case-insensitively exact item no matter the accumulated best match or score. -/
theorem matchGo_exact (dishL : List Char) (t : Q) :
    ∀ (items : List String) (bm : Option String) (bs : Q) (i : String),
      items.find? (fun x => lowerL x.data == dishL) = some i →
      matchGo dishL t items bm bs = some i := by
  intro items
  induction items with
  | nil => intro bm bs i h; simp [List.find?] at h
  | cons x rest ih =>
    intro bm bs i h
    by_cases hx : lowerL x.data = dishL
    · have hb : (lowerL x.data == dishL) = true := beq_iff_eq.mpr hx
      simp only [List.find?, hb, Option.some.injEq] at h
      subst h
      simp [matchGo, hx]
    · have hb : (lowerL x.data == dishL) = false := beq_eq_false_iff_ne.mpr hx
      simp only [List.find?, hb] at h
      simp only [matchGo, if_neg hx]
      split <;> exact ih _ _ _ h

/-- C10: in `match_dish_to_menu` a case-insensitive exact match is returned
without the threshold ever being checked — for every threshold, including
thresholds greater than 1.0, the first exactly matching menu item is
returned. -/
theorem c10_exact_match_ignores_threshold
    (dish : String) (menu_items : List String) (threshold : Q) (i : String)
    (h : menu_items.find? (fun x => lowerL x.data == lowerL dish.data) = some i) :
    match_dish_to_menu dish menu_items threshold = some i :=
  matchGo_exact (lowerL dish.data) threshold menu_items none ⟨0, 1⟩ i h

/-- Witness for C10 at threshold 2 (> 1.0). -/
theorem c10_witness :
    match_dish_to_menu "ramen" ["Ramen"] ⟨2, 1⟩ = some "Ramen" :=
  c10_exact_match_ignores_threshold "ramen" ["Ramen"] ⟨2, 1⟩ "Ramen" rfl

/-- C1 (amended): if the stripped input is valid strict JSON *and* the
fence-stripping and bracket-isolation steps leave it unchanged, then
`safe_json_parse` returns exactly the strict parse (the comma repairs are
never attempted). -/
theorem c1_valid_json_is_strict_parse (s : String) (v : Json)
    (hfence : fenceStrip (pyStripL s.data) = pyStripL s.data)
    (hiso : isolateObj (pyStripL s.data) = pyStripL s.data)
    (hparse : loadsL (pyStripL s.data) = some v) :
    safe_json_parse s = .ok v := by
  simp only [safe_json_parse, preprocess, hfence, hiso, hparse]

/-- Witness for C1 on the valid object `{"a": 1}`. -/
theorem c1_witness :
    safe_json_parse "\x7b\"a\": 1\x7d" = .ok (Json.obj [("a", Json.num ⟨1, 1⟩)]) :=
  c1_valid_json_is_strict_parse "\x7b\"a\": 1\x7d" (Json.obj [("a", Json.num ⟨1, 1⟩)])
    rfl rfl rfl

/-- C1 counterexample: `["{}", 1]` is valid strict JSON (an array), yet
`safe_json_parse` returns the empty *object*: bracket isolation cuts the
`{}` out of the string literal, so the recovery steps are not no-ops on this
already-valid input and the result differs from the strict parse. -/
theorem c1_counterexample :
    loads "[\"\x7b\x7d\", 1]" = some (Json.arr [Json.str "\x7b\x7d", Json.num ⟨1, 1⟩]) ∧
    safe_json_parse "[\"\x7b\x7d\", 1]" = .ok (Json.obj []) ∧
    Json.obj [] ≠ Json.arr [Json.str "\x7b\x7d", Json.num ⟨1, 1⟩] :=
  ⟨rfl, rfl, fun h => Json.noConfusion h⟩

/-- C2 (amended): whenever all three parse attempts fail, `safe_json_parse`
raises an error (it never returns a default value), and the error carries the
first 500 characters of the *processed* text (stripped, fence-stripped,
bracket-isolated) — not of the raw input. -/
theorem c2_all_attempts_fail_error (s : String)
    (h1 : loadsL (preprocess s) = none)
    (h2 : loadsL (fixTrailing (preprocess s)) = none)
    (h3 : loadsL (fixMissing (fixTrailing (preprocess s))) = none) :
    safe_json_parse s = .error ⟨String.mk ((preprocess s).take 500)⟩ := by
  simp only [safe_json_parse, h1, h2, h3]

/-- Witness for C2: the empty input fails, with an empty preview. -/
theorem c2_witness : safe_json_parse "" = .error ⟨""⟩ :=
  c2_all_attempts_fail_error "" rfl rfl rfl

/-- C2 counterexample: on the spec's unrecoverable input the raised error
carries the bracket-isolated text `{"menu": [}`, not the first ~500
characters of the raw input (which would include the leading prose). -/
theorem c2_counterexample :
    safe_json_parse "Sure! Here is the menu: \x7b\"menu\": [\x7d"
      = .error ⟨"\x7b\"menu\": [\x7d"⟩ ∧
    ("\x7b\"menu\": [\x7d" : String)
      ≠ String.mk (("Sure! Here is the menu: \x7b\"menu\": [\x7d" : String).data.take 500) :=
  ⟨rfl, by decide⟩

/-- C8 (amended): if preprocessing is a no-op, the text fails the strict
parse, and the trailing-comma repair turns it into a text `r` that parses to
`v`, then `safe_json_parse` succeeds with `v`.  (`r` is the comma-free
equivalent whenever the single trailing comma is the only comma-before-
closing-bracket occurrence in the text.) -/
theorem c8_trailing_comma_recovery (s : String) (r : List Char) (v : Json)
    (hpre : preprocess s = pyStripL s.data)
    (h1 : loadsL (pyStripL s.data) = none)
    (hfix : fixTrailing (pyStripL s.data) = r)
    (h2 : loadsL r = some v) :
    safe_json_parse s = .ok v := by
  simp only [safe_json_parse, hpre, h1, hfix, h2]

/-- Witness for C8: `{"a": 1,}` parses to the same structure as `{"a": 1}`. -/
theorem c8_witness :
    safe_json_parse "\x7b\"a\": 1,\x7d" = .ok (Json.obj [("a", Json.num ⟨1, 1⟩)]) :=
  c8_trailing_comma_recovery "\x7b\"a\": 1,\x7d" "\x7b\"a\": 1\x7d".data
    (Json.obj [("a", Json.num ⟨1, 1⟩)]) rfl rfl rfl rfl

/-- C8 counterexample: `["{}", 1,]` has a single trailing comma and its
comma-free equivalent `["{}", 1]` is strict-parseable, yet `safe_json_parse`
returns the empty object (bracket isolation fires first), not the structure
of the comma-free equivalent. -/
theorem c8_counterexample :
    safe_json_parse "[\"\x7b\x7d\", 1,]" = .ok (Json.obj []) ∧
    loads "[\"\x7b\x7d\", 1]" = some (Json.arr [Json.str "\x7b\x7d", Json.num ⟨1, 1⟩]) ∧
    Json.obj [] ≠ Json.arr [Json.str "\x7b\x7d", Json.num ⟨1, 1⟩] :=
  ⟨rfl, rfl, fun h => Json.noConfusion h⟩

/-- C5 (amended): `extract_popular_dishes` is total and converts both a
failed model call and a response whose JSON decode fails into `[]`.  (A
response that decodes to a non-array JSON value is *not* always converted to
`[]` — see the counterexample.) -/
theorem c5_soft_failure (reviews : List String) (api_key : String)
    (genModel : String → String → Except String String) (top_n : Nat) :
    (∀ e, genModel api_key (dishPrompt reviews) = .error e →
      extract_popular_dishes reviews api_key genModel top_n = []) ∧
    (∀ resp, genModel api_key (dishPrompt reviews) = .ok resp →
      loadsL (isolateArr (fenceStrip (pyStripL resp.data))) = none →
      extract_popular_dishes reviews api_key genModel top_n = []) := by
  constructor
  · intro e he
    unfold extract_popular_dishes
    split
    · rfl
    · rw [he]
  · intro resp hr hl
    unfold extract_popular_dishes
    split
    · rfl
    · rw [hr]
      simp only [hl]

/-- Witness for C5: a network-style failure and an unparseable response both
yield `[]`. -/
theorem c5_witness :
    extract_popular_dishes ["a review"] "k" (fun _ _ => .error "network down") 10 = [] ∧
    extract_popular_dishes ["a review"] "k" (fun _ _ => .ok "I could not find dishes.") 10
      = [] :=
  ⟨(c5_soft_failure ["a review"] "k" (fun _ _ => .error "network down") 10).1
      "network down" rfl,
   (c5_soft_failure ["a review"] "k" (fun _ _ => .ok "I could not find dishes.") 10).2
      "I could not find dishes." rfl rfl⟩

/-- C5 counterexample: a response that parses as a JSON *object* of counts —
hence "cannot be parsed as a JSON array" — is not converted to an empty
list: `Counter(dict)` adopts it and the function returns a non-empty result. -/
theorem c5_counterexample :
    extract_popular_dishes ["great ramen place"] "key"
        (fun _ _ => .ok "\x7b\"Ramen\": 3\x7d") 10
      = [⟨"Ramen", 3, ⟨4, 5⟩, []⟩] ∧
    [(⟨"Ramen", 3, ⟨4, 5⟩, []⟩ : PopularDish)] ≠ ([] : List PopularDish) :=
  ⟨rfl, fun h => List.noConfusion h⟩

/-! Lemmas about the `Counter`/`most_common` aggregation. -/

theorem insertDesc_perm (x : String × Int) (l : List (String × Int)) :
    (insertDesc x l).Perm (x :: l) := by
  induction l with
  | nil => exact List.Perm.refl _
  | cons y t ih =>
    simp only [insertDesc]
    split
    · exact (ih.cons y).trans (List.Perm.swap x y t)
    · exact List.Perm.refl _

theorem sortCountDesc_perm (l : List (String × Int)) : (sortCountDesc l).Perm l := by
  induction l with
  | nil => exact List.Perm.refl _
  | cons x t ih => exact (insertDesc_perm x (sortCountDesc t)).trans (ih.cons x)

theorem mem_insertDesc {x y : String × Int} {l : List (String × Int)}
    (h : y ∈ insertDesc x l) : y = x ∨ y ∈ l := by
  have := (insertDesc_perm x l).mem_iff.mp h
  simpa using this

theorem insertDesc_pairwise {x : String × Int} {l : List (String × Int)}
    (h : List.Pairwise (fun a b : String × Int => b.2 ≤ a.2) l) :
    List.Pairwise (fun a b : String × Int => b.2 ≤ a.2) (insertDesc x l) := by
  induction l with
  | nil => simp [insertDesc]
  | cons y t ih =>
    rcases List.pairwise_cons.mp h with ⟨hy, ht⟩
    simp only [insertDesc]
    split
    · rename_i hlt
      refine List.pairwise_cons.mpr ⟨?_, ih ht⟩
      intro z hz
      rcases mem_insertDesc hz with rfl | hz'
      · exact le_of_lt hlt
      · exact hy z hz'
    · rename_i hge
      refine List.pairwise_cons.mpr ⟨?_, h⟩
      intro z hz
      rcases List.mem_cons.mp hz with rfl | hz'
      · exact le_of_not_lt hge
      · exact le_trans (hy z hz') (le_of_not_lt hge)

theorem sortCountDesc_pairwise (l : List (String × Int)) :
    List.Pairwise (fun a b : String × Int => b.2 ≤ a.2) (sortCountDesc l) := by
  induction l with
  | nil => simp [sortCountDesc]
  | cons x t ih => exact insertDesc_pairwise ih

/-- Stability of the descending insertion sort: within each count class the
order of entries is untouched. -/
theorem filter_insertDesc (x : String × Int) (l : List (String × Int)) (c : Int) :
    (insertDesc x l).filter (fun p => p.2 == c)
      = if x.2 == c then x :: l.filter (fun p => p.2 == c)
        else l.filter (fun p => p.2 == c) := by
  induction l with
  | nil =>
    simp only [insertDesc, List.filter]
    cases hb : (x.2 == c) <;> simp [hb]
  | cons y t ih =>
    simp only [insertDesc]
    split
    · rename_i hlt
      by_cases hyc : (y.2 == c) = true
      · have hy' : y.2 = c := beq_iff_eq.mp hyc
        have hx : (x.2 == c) = false := by
          refine beq_eq_false_iff_ne.mpr ?_
          omega
        simp [List.filter_cons, hyc, ih, hx]
      · have hyc' : (y.2 == c) = false := Bool.eq_false_iff.mpr hyc
        simp [List.filter_cons, hyc', ih]
    · simp [List.filter_cons]

theorem filter_sortCountDesc (l : List (String × Int)) (c : Int) :
    (sortCountDesc l).filter (fun p => p.2 == c) = l.filter (fun p => p.2 == c) := by
  induction l with
  | nil => rfl
  | cons x t ih =>
    simp only [sortCountDesc, List.foldr_cons] at *
    rw [filter_insertDesc, ih, List.filter_cons]

/-- The count `cnt l k` looked up in an association list. -/
def cnt (l : List (String × Int)) (k : String) : Int :=
  match l.find? (fun p => p.1 == k) with
  | some p => p.2
  | none => 0

theorem cnt_counterAdd (l : List (String × Int)) (x k : String) :
    cnt (counterAdd l x) k = if k = x then cnt l k + 1 else cnt l k := by
  induction l with
  | nil =>
    by_cases h : k = x
    · subst h
      simp [counterAdd, cnt, List.find?]
    · have hb : (x == k) = false := beq_eq_false_iff_ne.mpr (Ne.symm h)
      simp [counterAdd, cnt, List.find?, hb, h]
  | cons y t ih =>
    obtain ⟨k', c'⟩ := y
    by_cases h1 : k' = x
    · subst h1
      by_cases h2 : k' = k
      · subst h2
        simp [counterAdd, cnt, List.find?]
      · have hb : (k' == k) = false := beq_eq_false_iff_ne.mpr h2
        have hkx : ¬ k = k' := fun hh => h2 hh.symm
        simp [counterAdd, cnt, List.find?, hb, hkx]
    · have hb1 : ¬ k' = x := h1
      by_cases h2 : k' = k
      · have hkx : ¬ k = x := fun hh => h1 (h2.trans hh)
        have hb2 : (k' == k) = true := beq_iff_eq.mpr h2
        simp [counterAdd, hb1, cnt, List.find?, hb2, hkx]
      · have hb : (k' == k) = false := beq_eq_false_iff_ne.mpr h2
        simp only [counterAdd, if_neg hb1]
        by_cases h3 : k = x
        · simp only [if_pos h3]
          simp only [cnt, List.find?, hb]
          have := ih
          rw [if_pos h3] at this
          simpa [cnt] using this
        · simp only [if_neg h3]
          simp only [cnt, List.find?, hb]
          have := ih
          rw [if_neg h3] at this
          simpa [cnt] using this

theorem cnt_foldl (xs : List String) :
    ∀ (acc : List (String × Int)) (k : String),
      cnt (xs.foldl counterAdd acc) k = cnt acc k + (xs.count k : Int) := by
  induction xs with
  | nil => intro acc k; simp [List.count_nil]
  | cons x t ih =>
    intro acc k
    rw [List.foldl_cons, ih, cnt_counterAdd]
    have hc : ((x :: t).count k : Int) = (t.count k : Int) + if k = x then 1 else 0 := by
      rw [List.count_cons]
      by_cases h : k = x
      · have : (x == k) = true := beq_iff_eq.mpr h.symm
        simp [this, h]
      · have : (x == k) = false := beq_eq_false_iff_ne.mpr fun hh => h hh.symm
        simp [this, h]
    rw [hc]
    split <;> omega

theorem cnt_counterList (xs : List String) (k : String) :
    cnt (counterList xs) k = (xs.count k : Int) := by
  rw [counterList, cnt_foldl xs [] k]
  simp [cnt, List.find?]

theorem keys_counterAdd (l : List (String × Int)) (x : String) :
    (counterAdd l x).map Prod.fst
      = if x ∈ l.map Prod.fst then l.map Prod.fst else l.map Prod.fst ++ [x] := by
  induction l with
  | nil => simp [counterAdd]
  | cons y t ih =>
    obtain ⟨k', c'⟩ := y
    by_cases h1 : k' = x
    · subst h1
      simp [counterAdd]
    · simp only [counterAdd, if_neg h1, List.map_cons, ih]
      by_cases h2 : x ∈ t.map Prod.fst
      · have hmem : x ∈ k' :: t.map Prod.fst := List.mem_cons_of_mem _ h2
        simp [h2, hmem]
      · have hnm : x ∉ k' :: t.map Prod.fst := by
          intro hx
          rcases List.mem_cons.mp hx with hh | hh
          · exact h1 hh.symm
          · exact h2 hh
        simp [h2, hnm]

theorem keys_nodup_counterAdd {l : List (String × Int)} {x : String}
    (h : (l.map Prod.fst).Nodup) : ((counterAdd l x).map Prod.fst).Nodup := by
  rw [keys_counterAdd]
  split
  · exact h
  · rename_i hnm
    refine List.Nodup.append h (List.nodup_singleton x) ?_
    intro a ha hb
    rw [List.mem_singleton] at hb
    subst hb
    exact hnm ha

theorem counterList_keys_nodup (xs : List String) :
    ((counterList xs).map Prod.fst).Nodup := by
  suffices h : ∀ acc : List (String × Int), (acc.map Prod.fst).Nodup →
      ((xs.foldl counterAdd acc).map Prod.fst).Nodup by
    exact h [] (by simp)
  induction xs with
  | nil => intro acc ha; simpa using ha
  | cons x t ih =>
    intro acc ha
    rw [List.foldl_cons]
    exact ih _ (keys_nodup_counterAdd ha)

theorem mem_cnt {l : List (String × Int)} (h : (l.map Prod.fst).Nodup)
    {k : String} {c : Int} (hm : (k, c) ∈ l) : c = cnt l k := by
  induction l with
  | nil => cases hm
  | cons y t ih =>
    obtain ⟨k', c'⟩ := y
    rcases List.mem_cons.mp hm with heq | hmem
    · injection heq with h1 h2
      subst h1
      subst h2
      simp [cnt, List.find?]
    · have hk : k ∈ t.map Prod.fst := List.mem_map.mpr ⟨(k, c), hmem, rfl⟩
      have hne : k' ≠ k := by
        intro hh
        subst hh
        exact (List.nodup_cons.mp (by simpa using h)).1 hk
      have hb : (k' == k) = false := beq_eq_false_iff_ne.mpr hne
      simp only [cnt, List.find?, hb]
      exact ih (List.nodup_cons.mp (by simpa using h)).2 hmem

theorem counterList_count {xs : List String} {k : String} {c : Int}
    (h : (k, c) ∈ counterList xs) : c = (xs.count k : Int) :=
  (mem_cnt (counterList_keys_nodup xs) h).trans (cnt_counterList xs k)

/-- C3: the aggregator counts by exact string equality, returns at most
`top_n` entries sorted by descending count with ties kept in
first-encountered order, and on the spec's example returns Ramen (3) then
Sushi (2) — both for the aggregation core and through the full
`extract_popular_dishes` pipeline with the model returning that dish array. -/
theorem c3_aggregation :
    (popularFromCounts (counterList ["Ramen", "Sushi", "Ramen", "Tempura", "Ramen", "Sushi"]) 2
      = [⟨"Ramen", 3, ⟨4, 5⟩, []⟩, ⟨"Sushi", 2, ⟨4, 5⟩, []⟩]) ∧
    (extract_popular_dishes ["r"] "key"
        (fun _ _ => .ok "[\"Ramen\",\"Sushi\",\"Ramen\",\"Tempura\",\"Ramen\",\"Sushi\"]") 2
      = [⟨"Ramen", 3, ⟨4, 5⟩, []⟩, ⟨"Sushi", 2, ⟨4, 5⟩, []⟩]) ∧
    (∀ (dishes : List String) (n : Nat),
      (popularFromCounts (counterList dishes) n).length ≤ n) ∧
    (∀ (dishes : List String) (n : Nat) (d : PopularDish),
      d ∈ popularFromCounts (counterList dishes) n →
        d.mention_count = (dishes.count d.name : Int)) ∧
    (∀ (dishes : List String) (n : Nat),
      List.Pairwise (fun a b : PopularDish => b.mention_count ≤ a.mention_count)
        (popularFromCounts (counterList dishes) n)) ∧
    (∀ (dishes : List String) (n : Nat) (c : Int),
      ((popularFromCounts (counterList dishes) n).map
          (fun d => (d.name, d.mention_count))).filter (fun p => p.2 == c)
        <+: (counterList dishes).filter (fun p => p.2 == c)) := by
  refine ⟨rfl, rfl, ?_, ?_, ?_, ?_⟩
  · intro dishes n
    simp [popularFromCounts, mostCommon]
  · intro dishes n d hd
    simp only [popularFromCounts, mostCommon, List.mem_map] at hd
    obtain ⟨p, hp, rfl⟩ := hd
    have hp' : p ∈ counterList dishes :=
      (sortCountDesc_perm (counterList dishes)).mem_iff.mp
        ((List.take_sublist _ _).subset hp)
    exact counterList_count (by simpa using hp')
  · intro dishes n
    refine List.pairwise_map.mpr ?_
    exact List.Pairwise.sublist (List.take_sublist _ _)
      (sortCountDesc_pairwise (counterList dishes))
  · intro dishes n c
    have hmk : ∀ L : List (String × Int),
        (L.map (fun p => (⟨p.1, p.2, ⟨4, 5⟩, []⟩ : PopularDish))).map
            (fun d => (d.name, d.mention_count)) = L := by
      intro L
      induction L with
      | nil => rfl
      | cons p t ih => cases p; simp [ih]
    have hmap :
        (popularFromCounts (counterList dishes) n).map (fun d => (d.name, d.mention_count))
          = (sortCountDesc (counterList dishes)).take n := by
      simp only [popularFromCounts, mostCommon]
      exact hmk _
    rw [hmap, ← filter_sortCountDesc (counterList dishes) c]
    exact List.IsPrefix.filter _ (List.take_prefix n _)

/-- Witness for C3's conditional clauses, instantiated on the spec's example. -/
theorem c3_witness :
    (⟨"Ramen", 3, ⟨4, 5⟩, []⟩ : PopularDish).mention_count
      = ((["Ramen", "Sushi", "Ramen", "Tempura", "Ramen", "Sushi"] : List String).count
          "Ramen" : Int) :=
  c3_aggregation.2.2.2.1 ["Ramen", "Sushi", "Ramen", "Tempura", "Ramen", "Sushi"] 2
    ⟨"Ramen", 3, ⟨4, 5⟩, []⟩ (by decide)

/-! Order lemmas for the fraction type `Q` (cross-multiplication comparisons
agree with the rational values when denominators are positive). -/

/-- The rational value of a fraction. -/
def Q.val (x : Q) : ℚ := (x.num : ℚ) / (x.den : ℚ)

theorem Q.le_iff_val {x y : Q} (hx : 0 < x.den) (hy : 0 < y.den) :
    x ≤ y ↔ x.val ≤ y.val := by
  have hx' : (0 : ℚ) < (x.den : ℚ) := by exact_mod_cast hx
  have hy' : (0 : ℚ) < (y.den : ℚ) := by exact_mod_cast hy
  rw [Q.val, Q.val, div_le_div_iff₀ hx' hy']
  constructor <;> intro h <;> exact_mod_cast h

theorem Q.lt_iff_val {x y : Q} (hx : 0 < x.den) (hy : 0 < y.den) :
    x < y ↔ x.val < y.val := by
  have hx' : (0 : ℚ) < (x.den : ℚ) := by exact_mod_cast hx
  have hy' : (0 : ℚ) < (y.den : ℚ) := by exact_mod_cast hy
  rw [Q.val, Q.val, div_lt_div_iff₀ hx' hy']
  constructor <;> intro h <;> exact_mod_cast h

theorem Q.le_refl (x : Q) : x ≤ x := Int.le_refl _

theorem Q.le_of_lt {x y : Q} (h : x < y) : x ≤ y := Int.le_of_lt h

theorem Q.le_of_not_lt {x y : Q} (h : ¬ x < y) : y ≤ x := Int.not_lt.mp h

theorem Q.not_le_of_lt {x y : Q} (h : x < y) : ¬ y ≤ x := Int.not_le.mpr h

theorem Q.lt_trans3 {a b c : Q} (ha : 0 < a.den) (hb : 0 < b.den) (hc : 0 < c.den)
    (h1 : a < b) (h2 : b < c) : a < c := by
  rw [Q.lt_iff_val ha hb] at h1
  rw [Q.lt_iff_val hb hc] at h2
  rw [Q.lt_iff_val ha hc]
  exact h1.trans h2

theorem Q.le_lt_trans3 {a b c : Q} (ha : 0 < a.den) (hb : 0 < b.den) (hc : 0 < c.den)
    (h1 : a ≤ b) (h2 : b < c) : a < c := by
  rw [Q.le_iff_val ha hb] at h1
  rw [Q.lt_iff_val hb hc] at h2
  rw [Q.lt_iff_val ha hc]
  exact lt_of_le_of_lt h1 h2

theorem containsSub_nil_left (l : List Char) : containsSub [] l = true := by
  cases l <;> rfl

theorem scoreOf_den_pos (a b : List Char) : 0 < (scoreOf a b).den := by
  unfold scoreOf
  split
  · norm_num
  · rename_i hcond
    have ha : a ≠ [] := by
      intro h
      subst h
      rw [containsSub_nil_left b] at hcond
      simp at hcond
    have h1 : 0 < a.length := List.length_pos.mpr ha
    unfold smRatioL
    show (0 : Int) < ((a.length + b.length : Nat) : Int)
    have : 0 < a.length + b.length := by omega
    exact_mod_cast this

theorem scoreOf_zero_le (a b : List Char) : (⟨0, 1⟩ : Q) ≤ scoreOf a b := by
  show (0 : Int) * (scoreOf a b).den ≤ (scoreOf a b).num * 1
  have : 0 ≤ (scoreOf a b).num := by
    unfold scoreOf
    split
    · norm_num
    · unfold smRatioL
      positivity
  omega

/-- Soundness of the best-tracking loop of `match_dish_to_menu` in the absence
of an exact match: a returned item either beats the running best (and then
dominates every scanned item and meets the threshold), or is the running best
itself. -/
theorem matchGo_some_spec (dishL : List Char) (t : Q) :
    ∀ (items : List String) (bm : Option String) (bs : Q) (m : String),
      (∀ it ∈ items, lowerL it.data ≠ dishL) →
      0 < bs.den →
      matchGo dishL t items bm bs = some m →
      (m ∈ items ∧ t ≤ scoreOf dishL (lowerL m.data) ∧
        bs < scoreOf dishL (lowerL m.data) ∧
        ∀ x ∈ items, scoreOf dishL (lowerL x.data) ≤ scoreOf dishL (lowerL m.data)) ∨
      (bm = some m ∧ t ≤ bs ∧ ∀ x ∈ items, scoreOf dishL (lowerL x.data) ≤ bs) := by
  intro items
  induction items with
  | nil =>
    intro bm bs m hne hbd hres
    simp only [matchGo] at hres
    split at hres
    · rename_i hts
      exact Or.inr ⟨hres, hts, by simp⟩
    · cases hres
  | cons y rest ih =>
    intro bm bs m hne hbd hres
    have hy : lowerL y.data ≠ dishL := hne y (List.mem_cons_self y rest)
    simp only [matchGo, if_neg hy] at hres
    split at hres
    · rename_i hlt
      rcases ih (some y) (scoreOf dishL (lowerL y.data)) m
          (fun it hit => hne it (List.mem_cons_of_mem _ hit)) (scoreOf_den_pos _ _) hres with
        ⟨hm, ht, hgt, hall⟩ | ⟨hbm, ht, hall⟩
      · refine Or.inl ⟨List.mem_cons_of_mem _ hm, ht, ?_, ?_⟩
        · exact Q.lt_trans3 hbd (scoreOf_den_pos _ _) (scoreOf_den_pos _ _) hlt hgt
        · intro x hx
          rcases List.mem_cons.mp hx with rfl | hx'
          · exact Q.le_of_lt hgt
          · exact hall x hx'
      · injection hbm with hm'
        subst hm'
        refine Or.inl ⟨List.mem_cons_self y rest, ht, hlt, ?_⟩
        intro x hx
        rcases List.mem_cons.mp hx with rfl | hx'
        · exact Q.le_refl _
        · exact hall x hx'
    · rename_i hnlt
      have hsy : scoreOf dishL (lowerL y.data) ≤ bs := Q.le_of_not_lt hnlt
      rcases ih bm bs m (fun it hit => hne it (List.mem_cons_of_mem _ hit)) hbd hres with
        ⟨hm, ht, hgt, hall⟩ | ⟨hbm, ht, hall⟩
      · refine Or.inl ⟨List.mem_cons_of_mem _ hm, ht, hgt, ?_⟩
        intro x hx
        rcases List.mem_cons.mp hx with rfl | hx'
        · exact Q.le_of_lt
            (Q.le_lt_trans3 (scoreOf_den_pos _ _) hbd (scoreOf_den_pos _ _) hsy hgt)
        · exact hall x hx'
      · refine Or.inr ⟨hbm, ht, ?_⟩
        intro x hx
        rcases List.mem_cons.mp hx with rfl | hx'
        · exact hsy
        · exact hall x hx'

/-- Completeness of the threshold check: if every scanned score is below the
threshold (and so is the running best), the loop returns nothing. -/
theorem matchGo_none_spec (dishL : List Char) (t : Q) :
    ∀ (items : List String) (bm : Option String) (bs : Q),
      (∀ it ∈ items, lowerL it.data ≠ dishL) →
      (∀ x ∈ items, scoreOf dishL (lowerL x.data) < t) →
      bs < t →
      matchGo dishL t items bm bs = none := by
  intro items
  induction items with
  | nil =>
    intro bm bs _ _ hbt
    simp only [matchGo]
    rw [if_neg (Q.not_le_of_lt hbt)]
  | cons y rest ih =>
    intro bm bs hne hsc hbt
    have hy : lowerL y.data ≠ dishL := hne y (List.mem_cons_self y rest)
    simp only [matchGo, if_neg hy]
    split
    · exact ih (some y) _ (fun it hit => hne it (List.mem_cons_of_mem _ hit))
        (fun x hx => hsc x (List.mem_cons_of_mem _ hx))
        (hsc y (List.mem_cons_self y rest))
    · exact ih bm bs (fun it hit => hne it (List.mem_cons_of_mem _ hit))
        (fun x hx => hsc x (List.mem_cons_of_mem _ hx)) hbt

/-- C4: `match_dish_to_menu` scores non-exact items by 0.9 on substring
containment and by the similarity ratio otherwise, keeps the highest-scoring
candidate, returns it only when its score reaches the threshold, and behaves
as specified on the two concrete examples. -/
theorem c4_fuzzy_match :
    (match_dish_to_menu "tonkatsu" ["Tonkatsu Curry", "Ramen"] ⟨7, 10⟩
      = some "Tonkatsu Curry") ∧
    (match_dish_to_menu "xyz123" ["Ramen"] ⟨7, 10⟩ = none) ∧
    (∀ (dish : String) (items : List String) (t : Q) (m : String),
      (∀ it ∈ items, lowerL it.data ≠ lowerL dish.data) →
      match_dish_to_menu dish items t = some m →
      m ∈ items ∧ t ≤ scoreOf (lowerL dish.data) (lowerL m.data) ∧
        ∀ x ∈ items, scoreOf (lowerL dish.data) (lowerL x.data)
          ≤ scoreOf (lowerL dish.data) (lowerL m.data)) ∧
    (∀ (dish : String) (items : List String) (t : Q),
      0 < t.den →
      (∀ it ∈ items, lowerL it.data ≠ lowerL dish.data) →
      (∀ x ∈ items, scoreOf (lowerL dish.data) (lowerL x.data) < t) →
      match_dish_to_menu dish items t = none) := by
  refine ⟨rfl, rfl, ?_, ?_⟩
  · intro dish items t m hne hres
    rcases matchGo_some_spec (lowerL dish.data) t items none ⟨0, 1⟩ m hne
        (by norm_num) hres with
      ⟨hm, ht, _, hall⟩ | ⟨hbm, _, _⟩
    · exact ⟨hm, ht, hall⟩
    · cases hbm
  · intro dish items t htd hne hsc
    cases items with
    | nil =>
      unfold match_dish_to_menu matchGo
      split <;> rfl
    | cons y rest =>
      have h0 : (⟨0, 1⟩ : Q) < t := by
        have hy := hsc y (List.mem_cons_self y rest)
        exact Q.le_lt_trans3 (by norm_num) (scoreOf_den_pos _ _) htd
          (scoreOf_zero_le _ _) hy
      exact matchGo_none_spec (lowerL dish.data) t (y :: rest) none ⟨0, 1⟩ hne hsc h0

/-- Witness for C4's conditional clauses at the no-match example. -/
theorem c4_witness : match_dish_to_menu "xyz123" ["Ramen"] ⟨7, 10⟩ = none :=
  c4_fuzzy_match.2.2.2 "xyz123" ["Ramen"] ⟨7, 10⟩ (by decide) (by decide) (by decide)

/-! String-surgery lemmas for the fence-stripping substitutions (C7). -/

theorem head_dropWhile {p : Char → Bool} :
    ∀ {l : List Char} {c : Char} {rest : List Char},
      l.dropWhile p = c :: rest → p c = false := by
  intro l
  induction l with
  | nil => intro c rest h; cases h
  | cons a l' ih =>
    intro c rest h
    rw [List.dropWhile_cons] at h
    split at h
    · exact ih h
    · rename_i hpa
      injection h with h1 _
      subst h1
      exact Bool.eq_false_iff.mpr hpa

theorem trimRight_decomp (l : List Char) :
    ∃ tws, l = trimRight wsp l ++ tws ∧ ∀ c ∈ tws, wsp c = true := by
  refine ⟨(l.reverse.takeWhile wsp).reverse, ?_, ?_⟩
  · simp only [trimRight]
    rw [← List.reverse_append, List.takeWhile_append_dropWhile, List.reverse_reverse]
  · intro c hc
    rw [List.mem_reverse] at hc
    exact List.mem_takeWhile_imp hc

theorem trimRight_last {l : List Char} {c : Char} {rest : List Char}
    (h : trimRight wsp l = rest ++ [c]) : wsp c = false := by
  unfold trimRight at h
  have h' : l.reverse.dropWhile wsp = c :: rest.reverse := by
    have := congrArg List.reverse h
    rwa [List.reverse_reverse, List.reverse_concat] at this
  exact head_dropWhile h'

theorem pyStripL_decomp (l : List Char) :
    ∃ lws tws, l = lws ++ pyStripL l ++ tws ∧
      (∀ c ∈ lws, wsp c = true) ∧ (∀ c ∈ tws, wsp c = true) := by
  obtain ⟨tws, h1, h2⟩ := trimRight_decomp (l.dropWhile wsp)
  refine ⟨l.takeWhile wsp, tws, ?_, ?_, h2⟩
  · conv_lhs => rw [← List.takeWhile_append_dropWhile wsp l]
    rw [pyStripL, List.append_assoc, ← h1]
  · intro c hc
    exact List.mem_takeWhile_imp hc

theorem pyStripL_head {l : List Char} {c : Char} {rest : List Char}
    (h : pyStripL l = c :: rest) : wsp c = false := by
  obtain ⟨tws, h1, _⟩ := trimRight_decomp (l.dropWhile wsp)
  rw [pyStripL] at h
  rw [h] at h1
  exact head_dropWhile (l := l) (by rw [h1, List.cons_append])

theorem pyStripL_last {l : List Char} {c : Char} {rest : List Char}
    (h : pyStripL l = rest ++ [c]) : wsp c = false :=
  trimRight_last h

/-- `trimRight` removes exactly an all-whitespace tail appended after a text
that does not end in whitespace. -/
theorem trimRight_append_ws {u w : List Char} (hw : ∀ c ∈ w, wsp c = true)
    (hu : ∀ c rest, u = rest ++ [c] → wsp c = false) :
    trimRight wsp (u ++ w) = u := by
  unfold trimRight
  rw [List.reverse_append]
  have hwrev : w.reverse.dropWhile wsp = [] :=
    List.dropWhile_eq_nil_iff.mpr fun x hx => hw x (List.mem_reverse.mp hx)
  rw [List.dropWhile_append, hwrev]
  simp only [List.isEmpty_nil, if_true]
  rcases List.eq_nil_or_concat u with rfl | ⟨r, c, hu'⟩
  · simp
  · rw [List.concat_eq_append] at hu'
    subst hu'
    rw [List.reverse_concat, List.dropWhile_cons,
      if_neg (by rw [hu c r rfl]; exact Bool.false_ne_true)]
    rw [← List.reverse_concat, List.reverse_reverse]

theorem fence3_chars : fence3 = '`' :: '`' :: '`' :: [] := rfl

theorem fenceJson_chars : fenceJson = '`' :: '`' :: '`' :: 'j' :: 's' :: 'o' :: 'n' :: [] := rfl

/-- A text that does not start with ` ``` ` still does not once padded with a
whitespace-headed tail. -/
theorem not_fence3_prefix_pad {u z : List Char} (hp : ¬ fence3 <+: u)
    {zc : Char} {zr : List Char} (hz : z = zc :: zr) (hzc : wsp zc = true) :
    ¬ fence3 <+: (u ++ z) := by
  subst hz
  match u with
  | [] =>
    intro ⟨r, hr⟩
    rw [fence3_chars] at hr
    simp only [List.nil_append, List.cons_append, List.cons.injEq] at hr
    obtain ⟨h1, _⟩ := hr
    rw [← h1] at hzc
    exact absurd hzc (by decide)
  | [a] =>
    intro ⟨r, hr⟩
    rw [fence3_chars] at hr
    simp only [List.cons_append, List.nil_append, List.cons.injEq] at hr
    obtain ⟨_, h2, _⟩ := hr
    rw [← h2] at hzc
    exact absurd hzc (by decide)
  | [a, b] =>
    intro ⟨r, hr⟩
    rw [fence3_chars] at hr
    simp only [List.cons_append, List.nil_append, List.cons.injEq] at hr
    obtain ⟨_, _, h3, _⟩ := hr
    rw [← h3] at hzc
    exact absurd hzc (by decide)
  | a :: b :: c :: u3 =>
    intro ⟨r, hr⟩
    rw [fence3_chars] at hr
    simp only [List.cons_append, List.cons.injEq] at hr
    obtain ⟨h1, h2, h3, _⟩ := hr
    exact hp ⟨u3, by rw [fence3_chars, ← h1, ← h2, ← h3]; rfl⟩

/-- A text whose first and last characters are not whitespace is unchanged by
`str.strip()`. -/
theorem pyStripL_noop {l : List Char}
    (hh : ∀ c rest, l = c :: rest → wsp c = false)
    (hl : ∀ c rest, l = rest ++ [c] → wsp c = false) :
    pyStripL l = l := by
  unfold pyStripL
  have hd : l.dropWhile wsp = l := by
    cases l with
    | nil => rfl
    | cons a l' =>
      rw [List.dropWhile_cons, if_neg (by rw [hh a l' rfl]; exact Bool.false_ne_true)]
  rw [hd]
  have := trimRight_append_ws (w := []) (u := l) (by simp) hl
  rwa [List.append_nil] at this

/-- The trailing-fence substitution removes exactly the closing fence and the
whitespace before it. -/
theorem subSuffixFence_tail {u tws : List Char} (htws : ∀ c ∈ tws, wsp c = true)
    (hu : ∀ c rest, u = rest ++ [c] → wsp c = false) :
    subSuffixFence (u ++ (tws ++ '\n' :: fence3)) = u := by
  have hshape : u ++ (tws ++ '\n' :: fence3) = (u ++ tws ++ ['\n']) ++ fence3 := by
    simp
  have hsuf : fence3.isSuffixOf (u ++ (tws ++ '\n' :: fence3)) = true := by
    rw [List.isSuffixOf_iff_suffix, hshape]
    exact ⟨u ++ tws ++ ['\n'], rfl⟩
  unfold subSuffixFence
  rw [hsuf]
  simp only [if_true]
  have hlen : (u ++ (tws ++ '\n' :: fence3)).length - 3 = (u ++ tws ++ ['\n']).length := by
    rw [fence3_chars]
    simp only [List.length_append, List.length_cons, List.length_nil]
    omega
  rw [hlen, hshape, List.take_left]
  rw [List.append_assoc u tws ['\n']]
  exact trimRight_append_ws
    (fun c hc => by
      rcases List.mem_append.mp hc with hc' | hc'
      · exact htws c hc'
      · rw [List.mem_singleton] at hc'
        subst hc'
        rfl)
    hu

/-- When the stripped text carries no fence markers of its own, the three
fence substitutions are no-ops. -/
theorem fenceStrip_noop {u : List Char} (hp : ¬ fence3 <+: u) (hs : ¬ fence3 <:+ u) :
    fenceStrip u = u := by
  have hpj : ¬ fenceJson <+: u := fun h => by
    obtain ⟨r, hr⟩ := h
    exact hp ⟨'j' :: 's' :: 'o' :: 'n' :: r, by rw [← hr]; rfl⟩
  have h1 : fenceJson.isPrefixOf u = false :=
    Bool.eq_false_iff.mpr fun hb => hpj (List.isPrefixOf_iff_prefix.mp hb)
  have h2 : fence3.isPrefixOf u = false :=
    Bool.eq_false_iff.mpr fun hb => hp (List.isPrefixOf_iff_prefix.mp hb)
  have h3 : fence3.isSuffixOf u = false :=
    Bool.eq_false_iff.mpr fun hb => hs (List.isSuffixOf_iff_suffix.mp hb)
  simp [fenceStrip, subPrefixJsonFence, subPrefixFence, subSuffixFence, h1, h2, h3]

/-- Shape of `dropWhile wsp (t.data ++ "\n```".data)`: either the stripped
text is empty and only the closing fence remains, or the stripped text heads
the result. -/
theorem dropWhile_wrap_tail (t : String) :
    (pyStripL t.data = [] ∧ (t.data ++ '\n' :: fence3).dropWhile wsp = fence3) ∨
    (∃ tws, (∀ c ∈ tws, wsp c = true) ∧
      (t.data ++ '\n' :: fence3).dropWhile wsp
        = pyStripL t.data ++ (tws ++ '\n' :: fence3) ∧
      pyStripL t.data ≠ []) := by
  obtain ⟨lws, tws, hdec, hlws, htws⟩ := pyStripL_decomp t.data
  have hgoal : (t.data ++ '\n' :: fence3).dropWhile wsp
      = ((pyStripL t.data ++ (tws ++ '\n' :: fence3)).dropWhile wsp) := by
    conv_lhs => rw [hdec]
    rw [List.append_assoc, List.append_assoc, List.dropWhile_append,
      List.dropWhile_eq_nil_iff.mpr hlws]
    rfl
  cases hu : pyStripL t.data with
  | nil =>
    left
    refine ⟨rfl, ?_⟩
    rw [hgoal, hu, List.nil_append, List.dropWhile_append,
      List.dropWhile_eq_nil_iff.mpr htws]
    rfl
  | cons c u' =>
    right
    refine ⟨tws, htws, ?_, by simp⟩
    rw [hgoal, hu, List.cons_append, List.dropWhile_cons,
      if_neg (by rw [pyStripL_head hu]; exact Bool.false_ne_true)]

/-- The trailing-fence substitution alone recovers the stripped inner text
from the whitespace-led remainder of a wrapped text. -/
theorem subSuffixFence_wrap_core (t : String) :
    subSuffixFence ((t.data ++ '\n' :: fence3).dropWhile wsp) = pyStripL t.data := by
  rcases dropWhile_wrap_tail t with ⟨hnil, hD⟩ | ⟨tws, htws, hD, _⟩
  · rw [hD, hnil]
    rfl
  · rw [hD]
    exact subSuffixFence_tail htws (fun c rest h => pyStripL_last h)

/-- Core of C7: after the leading fence is removed, the remaining prefix
substitution is a no-op and the trailing substitution recovers exactly the
stripped inner text. -/
theorem fenceStrip_wrap_core (t : String)
    (hp : ¬ fence3 <+: pyStripL t.data) :
    subSuffixFence (subPrefixFence ((t.data ++ '\n' :: fence3).dropWhile wsp))
      = pyStripL t.data := by
  rcases dropWhile_wrap_tail t with ⟨hnil, hD⟩ | ⟨tws, htws, hD, hne⟩
  · rw [hD, hnil]
    rfl
  · rw [hD]
    have hzdec : ∃ zc zr, tws ++ '\n' :: fence3 = zc :: zr ∧ wsp zc = true := by
      cases tws with
      | nil => exact ⟨'\n', fence3, rfl, rfl⟩
      | cons a t' => exact ⟨a, t' ++ '\n' :: fence3, rfl, htws a (List.mem_cons_self a t')⟩
    obtain ⟨zc, zr, hz, hzc⟩ := hzdec
    have hnp : ¬ fence3 <+: (pyStripL t.data ++ (tws ++ '\n' :: fence3)) :=
      not_fence3_prefix_pad hp hz hzc
    have hnpb : fence3.isPrefixOf (pyStripL t.data ++ (tws ++ '\n' :: fence3)) = false :=
      Bool.eq_false_iff.mpr fun hb => hnp (List.isPrefixOf_iff_prefix.mp hb)
    rw [subPrefixFence, if_neg (by rw [hnpb]; exact Bool.false_ne_true)]
    exact subSuffixFence_tail htws (fun c rest h => pyStripL_last h)

/-- Preprocessing of the `\`\`\`json`-wrapped text equals preprocessing of the
bare text. -/
theorem preprocess_wrap_json (t : String)
    (hp : ¬ fence3 <+: pyStripL t.data) (hs : ¬ fence3 <:+ pyStripL t.data) :
    preprocess ("```json\n" ++ t ++ "\n```") = preprocess t := by
  have hW1 : (("```json\n" ++ t ++ "\n```" : String)).data
      = fenceJson ++ ('\n' :: (t.data ++ '\n' :: fence3)) := by
    rw [String.data_append, String.data_append]
    have e1 : ("```json\n" : String).data = fenceJson ++ ['\n'] := rfl
    have e2 : ("\n```" : String).data = '\n' :: fence3 := rfl
    rw [e1, e2]
    simp
  have hstrip : pyStripL (("```json\n" ++ t ++ "\n```" : String)).data
      = fenceJson ++ ('\n' :: (t.data ++ '\n' :: fence3)) := by
    rw [hW1]
    apply pyStripL_noop
    · intro c rest h
      rw [fenceJson_chars] at h
      injection h with h1 _
      rw [← h1]
      rfl
    · intro c rest h
      have hshape : fenceJson ++ ('\n' :: (t.data ++ '\n' :: fence3))
          = (fenceJson ++ '\n' :: (t.data ++ ['\n', '`', '`'])) ++ ['`'] := by
        simp [fence3_chars]
      rw [hshape] at h
      have h1 := congrArg List.getLast? h
      rw [List.getLast?_concat, List.getLast?_concat] at h1
      injection h1 with h2
      rw [← h2]
      rfl
  rw [preprocess, preprocess, hstrip]
  have hpre : fenceJson.isPrefixOf (fenceJson ++ ('\n' :: (t.data ++ '\n' :: fence3)))
      = true := List.isPrefixOf_iff_prefix.mpr ⟨_, rfl⟩
  rw [fenceStrip, subPrefixJsonFence, if_pos hpre]
  have hdrop : (fenceJson ++ ('\n' :: (t.data ++ '\n' :: fence3))).drop 7
      = '\n' :: (t.data ++ '\n' :: fence3) := by
    have h7 : 7 = fenceJson.length := rfl
    rw [h7, List.drop_left]
  rw [hdrop, List.dropWhile_cons, if_pos (show wsp '\n' = true from rfl)]
  rw [fenceStrip_wrap_core t hp, fenceStrip_noop hp hs]

/-- Preprocessing of the plain ` ``` `-wrapped text equals preprocessing of
the bare text. -/
theorem preprocess_wrap_plain (t : String)
    (hp : ¬ fence3 <+: pyStripL t.data) (hs : ¬ fence3 <:+ pyStripL t.data) :
    preprocess ("```\n" ++ t ++ "\n```") = preprocess t := by
  have hW2 : (("```\n" ++ t ++ "\n```" : String)).data
      = fence3 ++ ('\n' :: (t.data ++ '\n' :: fence3)) := by
    rw [String.data_append, String.data_append]
    have e1 : ("```\n" : String).data = fence3 ++ ['\n'] := rfl
    have e2 : ("\n```" : String).data = '\n' :: fence3 := rfl
    rw [e1, e2]
    simp
  have hstrip : pyStripL (("```\n" ++ t ++ "\n```" : String)).data
      = fence3 ++ ('\n' :: (t.data ++ '\n' :: fence3)) := by
    rw [hW2]
    apply pyStripL_noop
    · intro c rest h
      rw [fence3_chars] at h
      injection h with h1 _
      rw [← h1]
      rfl
    · intro c rest h
      have hshape : fence3 ++ ('\n' :: (t.data ++ '\n' :: fence3))
          = (fence3 ++ '\n' :: (t.data ++ ['\n', '`', '`'])) ++ ['`'] := by
        simp [fence3_chars]
      rw [hshape] at h
      have h1 := congrArg List.getLast? h
      rw [List.getLast?_concat, List.getLast?_concat] at h1
      injection h1 with h2
      rw [← h2]
      rfl
  rw [preprocess, preprocess, hstrip]
  have hnotjson : fenceJson.isPrefixOf (fence3 ++ ('\n' :: (t.data ++ '\n' :: fence3)))
      = false := by
    refine Bool.eq_false_iff.mpr fun hb => ?_
    obtain ⟨r, hr⟩ := List.isPrefixOf_iff_prefix.mp hb
    rw [fenceJson_chars, fence3_chars] at hr
    simp only [List.cons_append, List.nil_append, List.cons.injEq] at hr
    obtain ⟨_, _, _, h4, _⟩ := hr
    exact absurd h4 (by decide)
  rw [fenceStrip, subPrefixJsonFence, if_neg (by rw [hnotjson]; exact Bool.false_ne_true)]
  have hpre : fence3.isPrefixOf (fence3 ++ ('\n' :: (t.data ++ '\n' :: fence3)))
      = true := List.isPrefixOf_iff_prefix.mpr ⟨_, rfl⟩
  rw [subPrefixFence, if_pos hpre]
  have hdrop : (fence3 ++ ('\n' :: (t.data ++ '\n' :: fence3))).drop 3
      = '\n' :: (t.data ++ '\n' :: fence3) := by
    have h3 : 3 = fence3.length := rfl
    rw [h3, List.drop_left]
  rw [hdrop, List.dropWhile_cons, if_pos (show wsp '\n' = true from rfl)]
  rw [subSuffixFence_wrap_core t, fenceStrip_noop hp hs]

/-- C7 (amended): wrapping a text in a leading ` ```json ` (or ` ``` `) marker
and a trailing ` ``` ` marker changes nothing about the parse — provided the
inner text does not itself begin or end (after stripping) with a stray fence
marker, in which case the substitutions would consume the wrong marker. -/
theorem c7_fence_wrapping_invariant (t : String)
    (hp : ¬ fence3 <+: pyStripL t.data) (hs : ¬ fence3 <:+ pyStripL t.data) :
    safe_json_parse ("```json\n" ++ t ++ "\n```") = safe_json_parse t ∧
    safe_json_parse ("```\n" ++ t ++ "\n```") = safe_json_parse t :=
  ⟨safe_json_parse_congr (preprocess_wrap_json t hp hs),
   safe_json_parse_congr (preprocess_wrap_plain t hp hs)⟩

/-- Witness for C7 on the inner text `{"a": 1}`. -/
theorem c7_witness :
    safe_json_parse ("```json\n" ++ "\x7b\"a\": 1\x7d" ++ "\n```")
      = safe_json_parse "\x7b\"a\": 1\x7d" ∧
    safe_json_parse ("```\n" ++ "\x7b\"a\": 1\x7d" ++ "\n```")
      = safe_json_parse "\x7b\"a\": 1\x7d" :=
  c7_fence_wrapping_invariant "\x7b\"a\": 1\x7d" (by decide) (by decide)

/-- C7 counterexample: for the inner text `123```' (which ends with a stray
fence marker) the wrapped parse fails while the unfenced parse succeeds, so
fencing does not always strip exactly the fence markers. -/
theorem c7_counterexample :
    safe_json_parse ("```json\n" ++ "123```" ++ "\n```") = .error ⟨"123```"⟩ ∧
    safe_json_parse "123```" = .ok (Json.num ⟨123, 1⟩) ∧
    (Except.error ⟨"123```"⟩ : Except ParseErr Json) ≠ .ok (Json.num ⟨123, 1⟩) :=
  ⟨rfl, rfl, fun h => Except.noConfusion h⟩

/-! Lemmas for the pydantic menu validation (C9). -/

theorem except_bind_error {ε α β : Type} (e : ε) (f : α → Except ε β) :
    (Except.error e >>= f) = Except.error e := rfl

theorem except_bind_ok {ε α β : Type} (a : α) (f : α → Except ε β) :
    (Except.ok a >>= f) = f a := rfl

theorem decAll_error_of_mem {α : Type} {f : Json → Except String α} {js : List Json}
    {j : Json} (hj : j ∈ js) {e : String} (hf : f j = .error e) :
    ∃ e', decAll f js = .error e' := by
  induction js with
  | nil => cases hj
  | cons x t ih =>
    rcases List.mem_cons.mp hj with rfl | hmem
    · exact ⟨e, by simp [decAll, hf, except_bind_error]⟩
    · cases hx : f x with
      | error e2 => exact ⟨e2, by simp [decAll, hx, except_bind_error]⟩
      | ok v =>
        obtain ⟨e', he'⟩ := ih hmem
        exact ⟨e', by simp [decAll, hx, he', except_bind_ok, except_bind_error]⟩

theorem decAll_ok_forall₂ {α : Type} {f : Json → Except String α} :
    ∀ {js : List Json} {xs : List α}, decAll f js = .ok xs →
      List.Forall₂ (fun j x => f j = .ok x) js xs := by
  intro js
  induction js with
  | nil =>
    intro xs h
    simp only [decAll] at h
    injection h with h'
    subst h'
    exact List.Forall₂.nil
  | cons x t ih =>
    intro xs h
    cases hx : f x with
    | error e => simp [decAll, hx, except_bind_error] at h
    | ok v =>
      cases ht : decAll f t with
      | error e => simp [decAll, hx, ht, except_bind_ok, except_bind_error] at h
      | ok vs =>
        simp only [decAll, hx, ht, except_bind_ok] at h
        injection h with h'
        subst h'
        exact List.Forall₂.cons hx (ih ht)

theorem except_map_error {ε α β : Type} (g : α → β) (e : ε) :
    (g <$> (Except.error e : Except ε α)) = .error e := rfl

theorem except_pure_eq_ok {ε α : Type} (a : α) : (pure a : Except ε α) = .ok a := rfl

theorem except_map_ok {ε α β : Type} (g : α → β) (a : α) :
    (g <$> (Except.ok a : Except ε α)) = .ok (g a) := rfl

theorem itemViolation_fails {j : Json} (h : itemNameViolation j = true) :
    ∃ e, MenuItem.fromJson j = .error e := by
  cases j with
  | obj l =>
    simp only [itemNameViolation] at h
    cases hg : getField l "name" with
    | none =>
      exact ⟨"field required",
        by simp [MenuItem.fromJson, decReqStr, hg, except_bind_error]⟩
    | some v =>
      rw [hg] at h
      cases v <;>
        first
          | (simp [optJsonIsStr] at h; done)
          | exact ⟨"wrong type",
              by simp [MenuItem.fromJson, decReqStr, hg, except_bind_error]⟩
  | null => cases h
  | bool b => cases h
  | num q => cases h
  | str s => cases h
  | arr a => cases h
  | nan => cases h
  | inf => cases h
  | negInf => cases h

theorem catViolation_fails {j : Json} (h : catViolation j = true) :
    ∃ e, MenuCategory.fromJson j = .error e := by
  cases j with
  | obj l =>
    simp only [catViolation, Bool.or_eq_true] at h
    rcases h with hcat | hits
    · cases hg : getField l "category" with
      | none =>
        exact ⟨"field required",
          by simp [MenuCategory.fromJson, decReqStr, hg, except_bind_error]⟩
      | some v =>
        rw [hg] at hcat
        cases v <;>
          first
            | (simp [optJsonIsStr] at hcat; done)
            | exact ⟨"wrong type",
                by simp [MenuCategory.fromJson, decReqStr, hg, except_bind_error]⟩
    · cases hg : getField l "items" with
      | none => rw [hg] at hits; simp [optJsonArrViol] at hits
      | some v =>
        rw [hg] at hits
        cases v with
        | arr its =>
          simp only [optJsonArrViol, List.any_eq_true] at hits
          obtain ⟨it, hmem, hviol⟩ := hits
          obtain ⟨e, he⟩ := itemViolation_fails hviol
          obtain ⟨e2, he2⟩ := decAll_error_of_mem hmem he
          cases hc : decReqStr (getField l "category") with
          | error e3 =>
            exact ⟨e3, by simp [MenuCategory.fromJson, hc, except_bind_error]⟩
          | ok cat =>
            cases hct : decOptStr (getField l "category_translated") with
            | error e4 =>
              exact ⟨e4, by simp [MenuCategory.fromJson, hc, hct, except_bind_ok,
                except_bind_error]⟩
            | ok ct =>
              refine ⟨e2, ?_⟩
              simp only [MenuCategory.fromJson, hc, hct, except_bind_ok]
              rw [hg]
              simp only [decItemList, he2, except_map_error, except_bind_error]
        | null => simp [optJsonArrViol] at hits
        | bool b => simp [optJsonArrViol] at hits
        | num q => simp [optJsonArrViol] at hits
        | str s => simp [optJsonArrViol] at hits
        | obj l2 => simp [optJsonArrViol] at hits
        | nan => simp [optJsonArrViol] at hits
        | inf => simp [optJsonArrViol] at hits
        | negInf => simp [optJsonArrViol] at hits
  | null => cases h
  | bool b => cases h
  | num q => cases h
  | str s => cases h
  | arr a => cases h
  | nan => cases h
  | inf => cases h
  | negInf => cases h

/-- C9 (amended): validation fails whenever a required field (`category`,
item `name`) is missing or of the wrong primitive type (failure is *not
limited* to that condition — see the counterexample); absent optional fields
default to `None` or `[]`; and category/item order is preserved verbatim
(element-wise validation of the input lists, in order). -/
theorem c9_menu_validation :
    (∀ j : Json, requiredFieldViolation j = true → ∃ e, ParsedMenu.fromJson j = .error e) ∧
    (∀ s : String, MenuItem.fromJson (.obj [("name", Json.str s)])
      = .ok ⟨s, none, none, none, none, none, none⟩) ∧
    (∀ s : String, MenuCategory.fromJson (.obj [("category", Json.str s)])
      = .ok ⟨s, none, []⟩) ∧
    (ParsedMenu.fromJson (.obj []) = .ok ⟨none, none, []⟩) ∧
    (∀ (l : List (String × Json)) (m : ParsedMenu),
      ParsedMenu.fromJson (.obj l) = .ok m →
      (getField l "menu" = none ∧ m.menu = []) ∨
      (∃ cats, getField l "menu" = some (.arr cats) ∧
        List.Forall₂ (fun c mc => MenuCategory.fromJson c = .ok mc) cats m.menu)) ∧
    (∀ (l : List (String × Json)) (mc : MenuCategory),
      MenuCategory.fromJson (.obj l) = .ok mc →
      (getField l "items" = none ∧ mc.items = []) ∨
      (∃ its, getField l "items" = some (.arr its) ∧
        List.Forall₂ (fun i mi => MenuItem.fromJson i = .ok mi) its mc.items)) := by
  refine ⟨?_, fun s => rfl, fun s => rfl, rfl, ?_, ?_⟩
  · intro j h
    cases j with
    | obj l =>
      simp only [requiredFieldViolation] at h
      cases hg : getField l "menu" with
      | none => rw [hg] at h; simp [optJsonArrViol] at h
      | some v =>
        rw [hg] at h
        cases v with
        | arr cats =>
          simp only [optJsonArrViol, List.any_eq_true] at h
          obtain ⟨c, hmem, hviol⟩ := h
          obtain ⟨e, he⟩ := catViolation_fails hviol
          obtain ⟨e2, he2⟩ := decAll_error_of_mem hmem he
          cases hdl : decOptStr (getField l "detected_language") with
          | error e3 =>
            exact ⟨e3, by simp [ParsedMenu.fromJson, hdl, except_bind_error]⟩
          | ok dl =>
            cases htl : decOptStr (getField l "target_language") with
            | error e4 =>
              exact ⟨e4, by simp [ParsedMenu.fromJson, hdl, htl, except_bind_ok,
                except_bind_error]⟩
            | ok tl =>
              refine ⟨e2, ?_⟩
              simp only [ParsedMenu.fromJson, hdl, htl, except_bind_ok]
              rw [hg]
              simp only [decCatList, he2, except_map_error, except_bind_error]
        | null => simp [optJsonArrViol] at h
        | bool b => simp [optJsonArrViol] at h
        | num q => simp [optJsonArrViol] at h
        | str s => simp [optJsonArrViol] at h
        | obj l2 => simp [optJsonArrViol] at h
        | nan => simp [optJsonArrViol] at h
        | inf => simp [optJsonArrViol] at h
        | negInf => simp [optJsonArrViol] at h
    | null => cases h
    | bool b => cases h
    | num q => cases h
    | str s => cases h
    | arr a => cases h
    | nan => cases h
    | inf => cases h
    | negInf => cases h
  · intro l m h
    simp only [ParsedMenu.fromJson] at h
    cases hdl : decOptStr (getField l "detected_language") with
    | error e => rw [hdl, except_bind_error] at h; cases h
    | ok dl =>
      rw [hdl, except_bind_ok] at h
      cases htl : decOptStr (getField l "target_language") with
      | error e => rw [htl, except_bind_error] at h; cases h
      | ok tl =>
        rw [htl, except_bind_ok] at h
        cases hg : getField l "menu" with
        | none =>
          left
          refine ⟨rfl, ?_⟩
          rw [hg] at h
          simp only [decCatList, except_bind_ok, except_pure_eq_ok] at h
          injection h with h2
          rw [← h2]
        | some v =>
          rw [hg] at h
          cases v with
          | arr cats =>
            right
            simp only [decCatList] at h
            cases hd : decAll MenuCategory.fromJson cats with
            | error e => rw [hd, except_bind_error] at h; cases h
            | ok ms =>
              rw [hd, except_bind_ok, except_pure_eq_ok] at h
              injection h with h2
              refine ⟨cats, rfl, ?_⟩
              rw [← h2]
              exact decAll_ok_forall₂ hd
          | null => simp only [decCatList, except_bind_error] at h; cases h
          | bool b => simp only [decCatList, except_bind_error] at h; cases h
          | num q => simp only [decCatList, except_bind_error] at h; cases h
          | str s => simp only [decCatList, except_bind_error] at h; cases h
          | obj l2 => simp only [decCatList, except_bind_error] at h; cases h
          | nan => simp only [decCatList, except_bind_error] at h; cases h
          | inf => simp only [decCatList, except_bind_error] at h; cases h
          | negInf => simp only [decCatList, except_bind_error] at h; cases h
  · intro l mc h
    simp only [MenuCategory.fromJson] at h
    cases hc : decReqStr (getField l "category") with
    | error e => rw [hc, except_bind_error] at h; cases h
    | ok cat =>
      rw [hc, except_bind_ok] at h
      cases hct : decOptStr (getField l "category_translated") with
      | error e => rw [hct, except_bind_error] at h; cases h
      | ok ct =>
        rw [hct, except_bind_ok] at h
        cases hg : getField l "items" with
        | none =>
          left
          refine ⟨rfl, ?_⟩
          rw [hg] at h
          simp only [decItemList, except_bind_ok, except_pure_eq_ok] at h
          injection h with h2
          rw [← h2]
        | some v =>
          rw [hg] at h
          cases v with
          | arr its =>
            right
            simp only [decItemList] at h
            cases hd : decAll MenuItem.fromJson its with
            | error e => rw [hd, except_bind_error] at h; cases h
            | ok ms =>
              rw [hd, except_bind_ok, except_pure_eq_ok] at h
              injection h with h2
              refine ⟨its, rfl, ?_⟩
              rw [← h2]
              exact decAll_ok_forall₂ hd
          | null => simp only [decItemList, except_bind_error] at h; cases h
          | bool b => simp only [decItemList, except_bind_error] at h; cases h
          | num q => simp only [decItemList, except_bind_error] at h; cases h
          | str s => simp only [decItemList, except_bind_error] at h; cases h
          | obj l2 => simp only [decItemList, except_bind_error] at h; cases h
          | nan => simp only [decItemList, except_bind_error] at h; cases h
          | inf => simp only [decItemList, except_bind_error] at h; cases h
          | negInf => simp only [decItemList, except_bind_error] at h; cases h


theorem c9_witness :
    (∃ e, ParsedMenu.fromJson
      (Json.obj [("menu", Json.arr [Json.obj [("category", Json.num ⟨1, 1⟩)]])])
        = .error e) ∧
    ((getField [("menu", Json.arr [Json.obj [("category", Json.str "Mains")]])] "menu"
        = none ∧ (⟨none, none, [⟨"Mains", none, []⟩]⟩ : ParsedMenu).menu = []) ∨
      (∃ cats, getField [("menu", Json.arr [Json.obj [("category", Json.str "Mains")]])]
          "menu" = some (.arr cats) ∧
        List.Forall₂ (fun c mc => MenuCategory.fromJson c = .ok mc) cats
          (⟨none, none, [⟨"Mains", none, []⟩]⟩ : ParsedMenu).menu)) :=
  ⟨c9_menu_validation.1
      (Json.obj [("menu", Json.arr [Json.obj [("category", Json.num ⟨1, 1⟩)]])]) rfl,
   c9_menu_validation.2.2.2.2.1
      [("menu", Json.arr [Json.obj [("category", Json.str "Mains")]])]
      ⟨none, none, [⟨"Mains", none, []⟩]⟩ rfl⟩

/-- C9 counterexample: `{"menu": 42}` has no category or item at all — no
required field is missing or mistyped — yet construction fails, so failure is
not *exactly* the required-field condition. -/
theorem c9_counterexample :
    requiredFieldViolation (Json.obj [("menu", Json.num ⟨42, 1⟩)]) = false ∧
    ParsedMenu.fromJson (Json.obj [("menu", Json.num ⟨42, 1⟩)])
      = .error "menu must be a list" :=
  ⟨rfl, rfl⟩

end MenuApp
